import Mathlib

/-!
A shallow embedding of the support/resistance zone detector
(`zone_detector.py`) and proofs about its behaviour.

Prices are modelled as rationals, timestamps as integers, indices as
naturals.  Python dictionaries for bars become the `Candle` structure;
the `Zone` dataclass becomes the `Zone` structure.  The string-typed
`type` and `status` fields, documented in the source as taking exactly
the values 'support' | 'resistance' and 'active' | 'broken', are
modelled as two-constructor inductives.
-/

namespace SR

/-- One OHLC bar (`candles[i]` dictionary in the source).  The `open`
field is renamed `open_` because `open` is a Lean keyword. -/
structure Candle where
  open_time : Int
  open_ : Rat
  high : Rat
  low : Rat
  close : Rat
  volume : Rat
deriving DecidableEq, Repr

/-- Default candle used only to total `List.getD` lookups that the
source performs at indices it has already bounds-checked. -/
def dfltCandle : Candle := ⟨0, 0, 0, 0, 0, 0⟩

/-- `type` field of a Zone: 'support' | 'resistance'. -/
inductive ZoneKind where
  | support
  | resistance
deriving DecidableEq, Repr

/-- `status` field of a Zone: 'active' | 'broken'. -/
inductive ZStatus where
  | active
  | broken
deriving DecidableEq, Repr

/-- The `Zone` dataclass of `zone_detector.py`. -/
structure Zone where
  type : ZoneKind
  zone_low : Rat
  zone_high : Rat
  origin_time : Int
  strength : Nat := 1
  touches : Nat := 0
  status : ZStatus := ZStatus.active
  pivot_idx : Nat := 0
deriving DecidableEq, Repr

/-- `Zone.distance_pct`: signed percentage distance from the zone's
near edge to `price`. -/
def Zone.distance_pct (z : Zone) (price : Rat) : Rat :=
  if z.type = ZoneKind.resistance then
    (z.zone_low - price) / price * 100
  else
    (z.zone_high - price) / price * 100

/-- `type` field of a pivot record: 'high' | 'low'. -/
inductive PivotKind where
  | high
  | low
deriving DecidableEq, Repr

/-- A pivot record `{'idx': int, 'type': 'high'|'low', 'candle': dict}`. -/
structure Pivot where
  idx : Nat
  type : PivotKind
  candle : Candle
deriving DecidableEq, Repr

/-- The pivot-high test of `_find_pivots` at index `i` (strict
inequalities against the four window neighbours, in source order). -/
def pivotHighAt (candles : List Candle) (i : Nat) : Bool :=
  let c := candles.getD i dfltCandle
  decide (c.high > (candles.getD (i-1) dfltCandle).high) &&
  decide (c.high > (candles.getD (i-2) dfltCandle).high) &&
  decide (c.high > (candles.getD (i+1) dfltCandle).high) &&
  decide (c.high > (candles.getD (i+2) dfltCandle).high)

/-- The pivot-low test of `_find_pivots` at index `i`. -/
def pivotLowAt (candles : List Candle) (i : Nat) : Bool :=
  let c := candles.getD i dfltCandle
  decide (c.low < (candles.getD (i-1) dfltCandle).low) &&
  decide (c.low < (candles.getD (i-2) dfltCandle).low) &&
  decide (c.low < (candles.getD (i+1) dfltCandle).low) &&
  decide (c.low < (candles.getD (i+2) dfltCandle).low)

/-- `_find_pivots`: scan `i` over `range(2, n-2)` and report a
pivot-high record and/or a pivot-low record at each qualifying index. -/
def find_pivots (candles : List Candle) : List Pivot :=
  (List.range' 2 (candles.length - 4)).flatMap fun i =>
    (if pivotHighAt candles i then
       [⟨i, PivotKind.high, candles.getD i dfltCandle⟩] else []) ++
    (if pivotLowAt candles i then
       [⟨i, PivotKind.low, candles.getD i dfltCandle⟩] else [])

/-- `_get_body_high`. -/
def getBodyHigh (c : Candle) : Rat := max c.open_ c.close

/-- `_get_body_low`. -/
def getBodyLow (c : Candle) : Rat := min c.open_ c.close

/-- Neighbour offsets visited by `_init_zone_from_pivot`, in source
order `[idx - 1, idx - 2, idx + 1, idx + 2]` (as integers, since the
source computes them before the `0 <= neighbor_idx < len` check). -/
def neighborIdxs (idx : Nat) : List Int :=
  [(idx : Int) - 1, (idx : Int) - 2, (idx : Int) + 1, (idx : Int) + 2]

/-- The neighbour-adjustment loop of `_init_zone_from_pivot` for a
pivot-high: raise `zone_low` to a neighbour's body-top when that
body-top lies strictly between the current `zone_low` and `zone_high`. -/
def neighborAdjustRes (candles : List Candle) (idx : Nat) (zone_high zl0 : Rat) : Rat :=
  (neighborIdxs idx).foldl (fun zone_low k =>
    if 0 ≤ k ∧ k.toNat < candles.length then
      let nb_body_high := getBodyHigh (candles.getD k.toNat dfltCandle)
      if nb_body_high > zone_low ∧ nb_body_high < zone_high then
        max zone_low nb_body_high
      else zone_low
    else zone_low) zl0

/-- The neighbour-adjustment loop of `_init_zone_from_pivot` for a
pivot-low. -/
def neighborAdjustSup (candles : List Candle) (idx : Nat) (zone_low zh0 : Rat) : Rat :=
  (neighborIdxs idx).foldl (fun zone_high k =>
    if 0 ≤ k ∧ k.toNat < candles.length then
      let nb_body_low := getBodyLow (candles.getD k.toNat dfltCandle)
      if nb_body_low < zone_high ∧ nb_body_low > zone_low then
        min zone_high nb_body_low
      else zone_high
    else zone_high) zh0

/-- `_init_zone_from_pivot`: build a candidate zone from a pivot,
rejecting degenerate geometry before and after neighbour adjustment. -/
def init_zone_from_pivot (pivot : Pivot) (candles : List Candle) : Option Zone :=
  let idx := pivot.idx
  let c := pivot.candle
  match pivot.type with
  | PivotKind.high =>
    let zone_high := c.high
    let zone_low := getBodyHigh c
    if zone_low ≥ zone_high then none
    else
      let zone_low := neighborAdjustRes candles idx zone_high zone_low
      if zone_low ≥ zone_high then none
      else some { type := ZoneKind.resistance, zone_low := zone_low,
                  zone_high := zone_high, origin_time := c.open_time,
                  pivot_idx := idx }
  | PivotKind.low =>
    let zone_low := c.low
    let zone_high := getBodyLow c
    if zone_high ≤ zone_low then none
    else
      let zone_high := neighborAdjustSup candles idx zone_low zone_high
      if zone_high ≤ zone_low then none
      else some { type := ZoneKind.support, zone_low := zone_low,
                  zone_high := zone_high, origin_time := c.open_time,
                  pivot_idx := idx }

/-- The refinement walk of `_refine_zone` for a support zone: running
minimum of closes, stopping at the first bar whose wick makes a new
lower low or whose close breaks below the outer bound. -/
def refineWalkSup (zLow : Rat) : List Candle → Rat → Rat
  | [], acc => acc
  | c :: rest, acc =>
    if c.low < zLow then acc
    else if c.close < zLow then acc
    else refineWalkSup zLow rest (min acc c.close)

/-- The refinement walk of `_refine_zone` for a resistance zone. -/
def refineWalkRes (zHigh : Rat) : List Candle → Rat → Rat
  | [], acc => acc
  | c :: rest, acc =>
    if c.high > zHigh then acc
    else if c.close > zHigh then acc
    else refineWalkRes zHigh rest (max acc c.close)

/-- `_refine_zone`: narrow the inner bound using the run of closes
after the pivot; apply the refined bound only when it stays strictly
inside the outer bound. -/
def refine_zone (zone : Zone) (candles : List Candle) : Zone :=
  if zone.type = ZoneKind.support then
    let min_close := refineWalkSup zone.zone_low
      (candles.drop zone.pivot_idx) zone.zone_high
    if min_close > zone.zone_low then { zone with zone_high := min_close }
    else zone
  else
    let max_close := refineWalkRes zone.zone_high
      (candles.drop zone.pivot_idx) zone.zone_low
    if max_close < zone.zone_high then { zone with zone_low := max_close }
    else zone

/-- `_is_broken`: a later close beyond the outer bound invalidates the
zone. -/
def is_broken (zone : Zone) (candles : List Candle) : Bool :=
  (candles.drop zone.pivot_idx).any fun c =>
    (decide (zone.type = ZoneKind.resistance) && decide (c.close > zone.zone_high)) ||
    (decide (zone.type = ZoneKind.support) && decide (c.close < zone.zone_low))

/-- The merge test of `_merge_zones` on a pair: same type and either
overlapping ranges or a gap below the proximity threshold. -/
def mergePred (t : Rat) (z1 z2 : Zone) : Bool :=
  decide (z1.type = z2.type) &&
  (let threshold := (z1.zone_high - z1.zone_low + z2.zone_high - z2.zone_low) / 2 * t
   let overlap := decide (z1.zone_low ≤ z2.zone_high) && decide (z2.zone_low ≤ z1.zone_high)
   let gap := max z1.zone_low z2.zone_low - min z1.zone_high z2.zone_high
   overlap || decide (gap < threshold))

/-- The field updates `_merge_zones` performs on the base zone of a
merged pair (`min` of lows, `max` of highs, summed strength, `min`
pivot index; the base keeps its own type, origin time and status). -/
def mergeInto (z1 z2 : Zone) : Zone :=
  { z1 with zone_low := min z1.zone_low z2.zone_low,
            zone_high := max z1.zone_high z2.zone_high,
            strength := z1.strength + z2.strength,
            pivot_idx := min z1.pivot_idx z2.pivot_idx }

/-- The inner `j` loop of `_merge_zones` for a fixed surviving `z1`:
each later unused zone that satisfies the merge test is marked used and
removed; when `z1` is the chronologically older base it accumulates the
merged fields, and when the later zone is the older base the source
writes the merged fields into that zone and then drops it, so the
surviving `z1` is returned unchanged.  Returns the surviving `z1`, the
remaining unused zones, and whether any merge happened. -/
def absorb (t : Rat) (z1 : Zone) : List Zone → Zone × List Zone × Bool
  | [] => (z1, [], false)
  | z2 :: rest =>
    if mergePred t z1 z2 then
      if z1.origin_time ≤ z2.origin_time then
        let r := absorb t (mergeInto z1 z2) rest
        (r.1, r.2.1, true)
      else
        let r := absorb t z1 rest
        (r.1, r.2.1, true)
    else
      let r := absorb t z1 rest
      (r.1, z2 :: r.2.1, r.2.2)

/-- One full pass of the `while merged` loop of `_merge_zones`,
fuelled: the fuel only limits recursion depth and a fuel of at least
the list length is always sufficient (`mergePassF_eq`-style lemmas
below). -/
def mergePassF (t : Rat) : Nat → List Zone → List Zone × Bool
  | _, [] => ([], false)
  | 0, zs => (zs, false)
  | fuel + 1, z1 :: rest =>
    let a := absorb t z1 rest
    let m := mergePassF t fuel a.2.1
    (a.1 :: m.1, a.2.2 || m.2)

/-- One pass of `_merge_zones` over the whole zone list. -/
def mergePass (t : Rat) (zs : List Zone) : List Zone × Bool :=
  mergePassF t zs.length zs

/-- The `while merged` fixed-point loop of `_merge_zones`, fuelled;
each merging pass strictly shrinks the list, so a fuel of the initial
length always reaches the fixed point. -/
def mergeLoopF (t : Rat) : Nat → List Zone → List Zone
  | 0, zs => zs
  | fuel + 1, zs =>
    let p := mergePass t zs
    if p.2 then mergeLoopF t fuel p.1 else p.1

/-- `_merge_zones` with its `threshold_pct` parameter. -/
def merge_zones (t : Rat) (zs : List Zone) : List Zone :=
  if zs.isEmpty then zs else mergeLoopF t zs.length zs

/-- `detect_zones`: pivots → init → breakout filter → refinement →
merging (at the default `threshold_pct = 0.005`) → final validity
filter. -/
def detect_zones (candles : List Candle) : List Zone :=
  if candles.length < 5 then []
  else
    let pivots := find_pivots candles
    let zones := pivots.filterMap fun pivot =>
      match init_zone_from_pivot pivot candles with
      | none => none
      | some zone =>
        if is_broken zone candles then none
        else some (refine_zone zone candles)
    let zones := merge_zones (5 / 1000) zones
    zones.filter fun z =>
      decide (z.zone_low < z.zone_high) && decide (z.status = ZStatus.active)

/-- Resistance candidates of `get_nearest_zones`: zones whose low is
strictly above price, or with price strictly inside their range. -/
def resCandidates (zones : List Zone) (current_price : Rat) : List Zone :=
  zones.filter fun z =>
    decide (z.type = ZoneKind.resistance) &&
    (decide (z.zone_low > current_price) ||
     (decide (z.zone_high > current_price) && decide (current_price > z.zone_low)))

/-- Support candidates of `get_nearest_zones`. -/
def supCandidates (zones : List Zone) (current_price : Rat) : List Zone :=
  zones.filter fun z =>
    decide (z.type = ZoneKind.support) &&
    (decide (z.zone_high < current_price) ||
     (decide (z.zone_low < current_price) && decide (current_price < z.zone_high)))

/-- Output record of `get_nearest_zones`. -/
structure NearestZones where
  resistance : List Zone
  support : List Zone
deriving DecidableEq, Repr

/-- Sort key relation for `resistance.sort(key=lambda z: z.zone_low)`. -/
def leLow (a b : Zone) : Prop := a.zone_low ≤ b.zone_low

instance : DecidableRel leLow :=
  fun a b => inferInstanceAs (Decidable (a.zone_low ≤ b.zone_low))

instance : IsTotal Zone leLow := ⟨fun a b => le_total a.zone_low b.zone_low⟩

instance : IsTrans Zone leLow := ⟨fun _ _ _ => le_trans⟩

/-- Sort key relation for
`support.sort(key=lambda z: z.zone_high, reverse=True)`. -/
def geHigh (a b : Zone) : Prop := b.zone_high ≤ a.zone_high

instance : DecidableRel geHigh :=
  fun a b => inferInstanceAs (Decidable (b.zone_high ≤ a.zone_high))

instance : IsTotal Zone geHigh := ⟨fun a b => le_total b.zone_high a.zone_high⟩

instance : IsTrans Zone geHigh := ⟨fun _ _ _ h h' => le_trans h' h⟩

/-- `get_nearest_zones`: classify, sort resistance ascending by
`zone_low` and support descending by `zone_high`, truncate to the
caps.  Python's `list.sort` is a stable sort by key; it is modelled by
the stable `List.insertionSort`, which computes the same list. -/
def get_nearest_zones (zones : List Zone) (current_price : Rat)
    (max_resistance : Nat := 3) (max_support : Nat := 4) : NearestZones :=
  { resistance :=
      (List.insertionSort leLow (resCandidates zones current_price)).take max_resistance
    support :=
      (List.insertionSort geHigh (supCandidates zones current_price)).take max_support }

/-- The refinement walk for a support zone with the close-breach stop
branch deleted (used to state C10). -/
def refineWalkSupNC (zLow : Rat) : List Candle → Rat → Rat
  | [], acc => acc
  | c :: rest, acc =>
    if c.low < zLow then acc
    else refineWalkSupNC zLow rest (min acc c.close)

/-- The refinement walk for a resistance zone with the close-breach
stop branch deleted (used to state C10). -/
def refineWalkResNC (zHigh : Rat) : List Candle → Rat → Rat
  | [], acc => acc
  | c :: rest, acc =>
    if c.high > zHigh then acc
    else refineWalkResNC zHigh rest (max acc c.close)

/-- `_refine_zone` with the close-breach stop branch deleted (used to
state C10). -/
def refine_zone_nc (zone : Zone) (candles : List Candle) : Zone :=
  if zone.type = ZoneKind.support then
    let min_close := refineWalkSupNC zone.zone_low
      (candles.drop zone.pivot_idx) zone.zone_high
    if min_close > zone.zone_low then { zone with zone_high := min_close }
    else zone
  else
    let max_close := refineWalkResNC zone.zone_high
      (candles.drop zone.pivot_idx) zone.zone_low
    if max_close < zone.zone_high then { zone with zone_low := max_close }
    else zone

/-- Breakout-freedom of a zone with respect to a bar sequence: no bar
at or after the zone's pivot index closes strictly beyond the zone's
outer bound (`zone_high` for resistance, `zone_low` for support). -/
def NotBrokenOut (cs : List Candle) (z : Zone) : Prop :=
  (z.type = ZoneKind.resistance →
    ∀ i, z.pivot_idx ≤ i → i < cs.length →
      (cs.getD i dfltCandle).close ≤ z.zone_high) ∧
  (z.type = ZoneKind.support →
    ∀ i, z.pivot_idx ≤ i → i < cs.length →
      z.zone_low ≤ (cs.getD i dfltCandle).close)

/-! ### Concrete instances used by witnesses and counterexamples -/

/-- A 5-bar sequence with a single pivot-high at index 2. -/
def csW : List Candle :=
  [⟨0, 9, 10, 5, 10, 1⟩, ⟨100, 9, 10, 5, 10, 1⟩, ⟨200, 12, 20, 5, 14, 1⟩,
   ⟨300, 9, 10, 5, 10, 1⟩, ⟨400, 9, 10, 5, 10, 1⟩]

/-- The resistance zone that `detect_zones csW` produces. -/
def zW : Zone :=
  { type := ZoneKind.resistance, zone_low := 14, zone_high := 20,
    origin_time := 200, pivot_idx := 2 }

/-- A resistance zone whose low sits exactly at the reference price. -/
def zC3 : Zone :=
  { type := ZoneKind.resistance, zone_low := 50, zone_high := 60,
    origin_time := 1000 }

/-- The chronologically newer of two overlapping resistance zones
(list position first). -/
def zNew : Zone :=
  { type := ZoneKind.resistance, zone_low := 100, zone_high := 102,
    origin_time := 2000, pivot_idx := 7 }

/-- The chronologically older of two overlapping resistance zones
(list position second). -/
def zOld : Zone :=
  { type := ZoneKind.resistance, zone_low := 101, zone_high := 103,
    origin_time := 1000, pivot_idx := 3 }

/-! ### Helper lemmas -/

/-- A `flatMap` over an ascending index list whose chunks only carry
their own index is ordered by index. -/
lemma flatMap_pairwise_idx (l : List Nat) (f : Nat → List Pivot)
    (hf : ∀ i ∈ l, ∀ p ∈ f i, p.idx = i)
    (hl : l.Pairwise (· ≤ ·)) :
    (l.flatMap f).Pairwise (fun a b => a.idx ≤ b.idx) := by
  induction l with
  | nil => simp
  | cons a l ih =>
    rw [List.flatMap_cons, List.pairwise_append]
    rw [List.pairwise_cons] at hl
    refine ⟨?_, ?_, ?_⟩
    · refine List.pairwise_of_forall_mem_list fun p hp q hq => ?_
      rw [hf a (by simp) p hp, hf a (by simp) q hq]
    · exact ih (fun i hi p hp => hf i (by simp [hi]) p hp) hl.2
    · intro p hp q hq
      rw [List.mem_flatMap] at hq
      obtain ⟨b, hb, hqb⟩ := hq
      rw [hf a (by simp) p hp, hf b (by simp [hb]) q hqb]
      exact hl.1 b hb

/-- Members of a pivot chunk of `find_pivots` carry the chunk's
index. -/
lemma pivot_chunk_idx (candles : List Candle) (i : Nat) (p : Pivot)
    (hp : p ∈ (if pivotHighAt candles i then
                 [(⟨i, PivotKind.high, candles.getD i dfltCandle⟩ : Pivot)] else []) ++
               (if pivotLowAt candles i then
                 [(⟨i, PivotKind.low, candles.getD i dfltCandle⟩ : Pivot)] else [])) :
    p.idx = i := by
  rw [List.mem_append] at hp
  rcases hp with hp | hp <;>
    [cases h : pivotHighAt candles i; cases h : pivotLowAt candles i] <;>
    simp [h] at hp <;> simp [hp]

/-- Unfolding of the pivot-high test into its four strict
inequalities. -/
lemma pivotHighAt_iff (cs : List Candle) (i : Nat) :
    pivotHighAt cs i = true ↔
      ((cs.getD i dfltCandle).high > (cs.getD (i-1) dfltCandle).high ∧
       (cs.getD i dfltCandle).high > (cs.getD (i-2) dfltCandle).high ∧
       (cs.getD i dfltCandle).high > (cs.getD (i+1) dfltCandle).high ∧
       (cs.getD i dfltCandle).high > (cs.getD (i+2) dfltCandle).high) := by
  simp [pivotHighAt, and_assoc]

/-- Unfolding of the pivot-low test into its four strict
inequalities. -/
lemma pivotLowAt_iff (cs : List Candle) (i : Nat) :
    pivotLowAt cs i = true ↔
      ((cs.getD i dfltCandle).low < (cs.getD (i-1) dfltCandle).low ∧
       (cs.getD i dfltCandle).low < (cs.getD (i-2) dfltCandle).low ∧
       (cs.getD i dfltCandle).low < (cs.getD (i+1) dfltCandle).low ∧
       (cs.getD i dfltCandle).low < (cs.getD (i+2) dfltCandle).low) := by
  simp [pivotLowAt, and_assoc]

/-- Membership in one pivot chunk of `find_pivots`. -/
lemma mem_pivot_chunk (cs : List Candle) (i : Nat) (p : Pivot) :
    (p ∈ (if pivotHighAt cs i then
            [(⟨i, PivotKind.high, cs.getD i dfltCandle⟩ : Pivot)] else []) ++
          (if pivotLowAt cs i then
            [(⟨i, PivotKind.low, cs.getD i dfltCandle⟩ : Pivot)] else [])) ↔
      ((pivotHighAt cs i = true ∧ p = ⟨i, PivotKind.high, cs.getD i dfltCandle⟩) ∨
       (pivotLowAt cs i = true ∧ p = ⟨i, PivotKind.low, cs.getD i dfltCandle⟩)) := by
  rcases h1 : pivotHighAt cs i <;> rcases h2 : pivotLowAt cs i <;> simp [h1, h2]

/-! ### C9: short inputs give empty output -/

/-- C9: a bar sequence with fewer than 5 bars yields an empty zone
list from `detect_zones` and an empty pivot list from `find_pivots`;
both functions are total, so no error can be raised. -/
theorem detect_zones_short_empty (cs : List Candle) (h : cs.length < 5) :
    detect_zones cs = [] ∧ find_pivots cs = [] := by
  constructor
  · simp [detect_zones, h]
  · have h4 : cs.length - 4 = 0 := by omega
    simp [find_pivots, h4]

/-- Witness for C9 at a concrete 4-bar input. -/
theorem detect_zones_short_empty_witness :
    detect_zones [dfltCandle, dfltCandle, dfltCandle, dfltCandle] = [] ∧
    find_pivots [dfltCandle, dfltCandle, dfltCandle, dfltCandle] = [] :=
  detect_zones_short_empty _ (by decide)

/-! ### C7: pivot detection characterisation -/

/-- C7: `find_pivots` reports a pivot-high at `i` exactly when
`2 ≤ i ≤ n-3` and the bar's high strictly exceeds the highs of the four
window neighbours (symmetrically for pivot-lows on lows); ties never
qualify; both kinds can coexist at one index; the output is ordered by
index; and sequences shorter than 5 bars give no pivots. -/
theorem find_pivots_spec (cs : List Candle) (p : Pivot) :
    (p ∈ find_pivots cs ↔
      (2 ≤ p.idx ∧ p.idx + 2 < cs.length ∧ p.candle = cs.getD p.idx dfltCandle ∧
        ((p.type = PivotKind.high ∧
          (cs.getD p.idx dfltCandle).high > (cs.getD (p.idx-1) dfltCandle).high ∧
          (cs.getD p.idx dfltCandle).high > (cs.getD (p.idx-2) dfltCandle).high ∧
          (cs.getD p.idx dfltCandle).high > (cs.getD (p.idx+1) dfltCandle).high ∧
          (cs.getD p.idx dfltCandle).high > (cs.getD (p.idx+2) dfltCandle).high) ∨
         (p.type = PivotKind.low ∧
          (cs.getD p.idx dfltCandle).low < (cs.getD (p.idx-1) dfltCandle).low ∧
          (cs.getD p.idx dfltCandle).low < (cs.getD (p.idx-2) dfltCandle).low ∧
          (cs.getD p.idx dfltCandle).low < (cs.getD (p.idx+1) dfltCandle).low ∧
          (cs.getD p.idx dfltCandle).low < (cs.getD (p.idx+2) dfltCandle).low)))) ∧
    (find_pivots cs).Pairwise (fun a b => a.idx ≤ b.idx) ∧
    (cs.length < 5 → find_pivots cs = []) := by
  refine ⟨?_, ?_, ?_⟩
  · rw [find_pivots, List.mem_flatMap]
    constructor
    · rintro ⟨i, hi, hp⟩
      rw [List.mem_range'] at hi
      obtain ⟨k, hk, rfl⟩ := hi
      rw [mem_pivot_chunk] at hp
      rcases hp with ⟨hb, rfl⟩ | ⟨hb, rfl⟩
      · rw [pivotHighAt_iff] at hb
        exact ⟨show 2 ≤ 2 + 1 * k by omega,
               show 2 + 1 * k + 2 < cs.length by omega, rfl,
               Or.inl ⟨rfl, hb.1, hb.2.1, hb.2.2.1, hb.2.2.2⟩⟩
      · rw [pivotLowAt_iff] at hb
        exact ⟨show 2 ≤ 2 + 1 * k by omega,
               show 2 + 1 * k + 2 < cs.length by omega, rfl,
               Or.inr ⟨rfl, hb.1, hb.2.1, hb.2.2.1, hb.2.2.2⟩⟩
    · rintro ⟨h2, hn, hc, hcond⟩
      obtain ⟨pi, pt, pc⟩ := p
      have h2' : 2 ≤ pi := h2
      have hn' : pi + 2 < cs.length := hn
      have hc' : pc = cs.getD pi dfltCandle := hc
      subst hc'
      refine ⟨pi, ?_, ?_⟩
      · rw [List.mem_range']
        exact ⟨pi - 2, by omega, by omega⟩
      · rw [mem_pivot_chunk]
        rcases hcond with ⟨ht, h1, h2'', h3, h4⟩ | ⟨ht, h1, h2'', h3, h4⟩
        · have ht' : pt = PivotKind.high := ht
          subst ht'
          exact Or.inl ⟨(pivotHighAt_iff cs pi).mpr ⟨h1, h2'', h3, h4⟩, rfl⟩
        · have ht' : pt = PivotKind.low := ht
          subst ht'
          exact Or.inr ⟨(pivotLowAt_iff cs pi).mpr ⟨h1, h2'', h3, h4⟩, rfl⟩
  · exact flatMap_pairwise_idx _ _ (fun i _ p hp => pivot_chunk_idx cs i p hp)
      ((List.pairwise_lt_range' 2 (cs.length - 4)).imp Nat.le_of_lt)
  · intro h
    have h4 : cs.length - 4 = 0 := by omega
    simp [find_pivots, h4]

/-- Witness for C7 at a concrete 5-bar input: the pivot-high at index 2
is reported, and a 4-bar prefix yields no pivots. -/
theorem find_pivots_spec_witness :
    ((⟨2, PivotKind.high,
        ⟨200, 12, 20, 5, 14, 1⟩⟩ : Pivot) ∈ find_pivots
      [⟨0, 9, 10, 5, 10, 1⟩, ⟨100, 9, 10, 5, 10, 1⟩, ⟨200, 12, 20, 5, 14, 1⟩,
       ⟨300, 9, 10, 5, 10, 1⟩, ⟨400, 9, 10, 5, 10, 1⟩]) ∧
    find_pivots [dfltCandle, dfltCandle] = [] := by
  constructor
  · exact (find_pivots_spec _ _).1.mpr
      ⟨by decide, by decide, by decide, Or.inl (by decide)⟩
  · exact (find_pivots_spec [dfltCandle, dfltCandle]
      ⟨0, PivotKind.high, dfltCandle⟩).2.2 (by decide)

/-! ### C3: nearest-zone classification is strict at the price -/

/-- Counterexample to C3 as stated: a resistance zone with
`zone_low = price` is NOT classified as a resistance candidate — the
code compares `z.zone_low > current_price` strictly, so the zone is
dropped and the resistance list is empty. -/
theorem nearest_zones_eq_price_excluded :
    zC3.type = ZoneKind.resistance ∧ zC3.zone_low = (50:Rat) ∧
    (get_nearest_zones [zC3] 50).resistance = [] := by decide

/-- C3 (amended): `get_nearest_zones` classifies a zone as a
resistance candidate exactly when the zone's low is strictly above the
price or the price lies strictly inside the zone's range, and
symmetrically for support with strict inequalities; a resistance zone
with `zone_low` equal to the price is not a candidate. -/
theorem nearest_zones_classification (zones : List Zone) (p : Rat)
    (mr ms : Nat) (z : Zone) :
    (get_nearest_zones zones p mr ms).resistance
        = (List.insertionSort leLow (resCandidates zones p)).take mr ∧
    (get_nearest_zones zones p mr ms).support
        = (List.insertionSort geHigh (supCandidates zones p)).take ms ∧
    (z ∈ resCandidates zones p ↔
      z ∈ zones ∧ z.type = ZoneKind.resistance ∧
        (z.zone_low > p ∨ (z.zone_high > p ∧ p > z.zone_low))) ∧
    (z ∈ supCandidates zones p ↔
      z ∈ zones ∧ z.type = ZoneKind.support ∧
        (z.zone_high < p ∨ (z.zone_low < p ∧ p < z.zone_high))) := by
  refine ⟨rfl, rfl, ?_, ?_⟩
  · simp [resCandidates, List.mem_filter, and_assoc]
  · simp [supCandidates, List.mem_filter, and_assoc]

/-! ### C5: selection bound and ordering -/

/-- C5: `get_nearest_zones` returns at most `max_resistance`
resistance zones and `max_support` support zones; the resistance list
is sorted ascending by `zone_low`, the support list descending by
`zone_high`; and (for a positive reference price) each list is
monotonically ordered by the signed percentage distance
`Zone.distance_pct`. -/
theorem get_nearest_zones_bounds (zones : List Zone) (p : Rat) (mr ms : Nat) :
    (get_nearest_zones zones p mr ms).resistance.length ≤ mr ∧
    (get_nearest_zones zones p mr ms).support.length ≤ ms ∧
    (get_nearest_zones zones p mr ms).resistance.Pairwise leLow ∧
    (get_nearest_zones zones p mr ms).support.Pairwise geHigh ∧
    (0 < p →
      (get_nearest_zones zones p mr ms).resistance.Pairwise
        (fun a b => a.distance_pct p ≤ b.distance_pct p) ∧
      (get_nearest_zones zones p mr ms).support.Pairwise
        (fun a b => b.distance_pct p ≤ a.distance_pct p)) := by
  have hres : (get_nearest_zones zones p mr ms).resistance.Pairwise leLow :=
    List.Pairwise.sublist (List.take_sublist mr _)
      (List.sorted_insertionSort leLow (resCandidates zones p))
  have hsup : (get_nearest_zones zones p mr ms).support.Pairwise geHigh :=
    List.Pairwise.sublist (List.take_sublist ms _)
      (List.sorted_insertionSort geHigh (supCandidates zones p))
  have hmemr : ∀ z ∈ (get_nearest_zones zones p mr ms).resistance,
      z.type = ZoneKind.resistance := by
    intro z hz
    have hz2 : z ∈ resCandidates zones p :=
      (List.perm_insertionSort leLow (resCandidates zones p)).mem_iff.mp
        ((List.take_sublist mr _).subset hz)
    have := (List.mem_filter.mp hz2).2
    simp only [Bool.and_eq_true, decide_eq_true_eq] at this
    exact this.1
  have hmems : ∀ z ∈ (get_nearest_zones zones p mr ms).support,
      z.type = ZoneKind.support := by
    intro z hz
    have hz2 : z ∈ supCandidates zones p :=
      (List.perm_insertionSort geHigh (supCandidates zones p)).mem_iff.mp
        ((List.take_sublist ms _).subset hz)
    have := (List.mem_filter.mp hz2).2
    simp only [Bool.and_eq_true, decide_eq_true_eq] at this
    exact this.1
  refine ⟨?_, ?_, hres, hsup, ?_⟩
  · show ((List.insertionSort leLow (resCandidates zones p)).take mr).length ≤ mr
    rw [List.length_take]
    exact min_le_left _ _
  · show ((List.insertionSort geHigh (supCandidates zones p)).take ms).length ≤ ms
    rw [List.length_take]
    exact min_le_left _ _
  · intro hp
    constructor
    · refine hres.imp_of_mem ?_
      intro a b ha hb hab
      rw [Zone.distance_pct, Zone.distance_pct, if_pos (hmemr a ha),
        if_pos (hmemr b hb)]
      have h1 : a.zone_low - p ≤ b.zone_low - p := sub_le_sub_right hab p
      exact mul_le_mul_of_nonneg_right
        ((div_le_div_iff_of_pos_right hp).mpr h1) (by norm_num)
    · refine hsup.imp_of_mem ?_
      intro a b ha hb hab
      have hta : ¬ a.type = ZoneKind.resistance := by
        rw [hmems a ha]; intro h; cases h
      have htb : ¬ b.type = ZoneKind.resistance := by
        rw [hmems b hb]; intro h; cases h
      rw [Zone.distance_pct, Zone.distance_pct, if_neg hta, if_neg htb]
      have h1 : b.zone_high - p ≤ a.zone_high - p := sub_le_sub_right hab p
      exact mul_le_mul_of_nonneg_right
        ((div_le_div_iff_of_pos_right hp).mpr h1) (by norm_num)

/-- Witness for C5 at a concrete input with positive price. -/
theorem get_nearest_zones_bounds_witness :
    (0:Rat) < 49 ∧
    (get_nearest_zones [zC3] 49).resistance.Pairwise
      (fun a b => a.distance_pct 49 ≤ b.distance_pct 49) :=
  ⟨by norm_num,
   ((get_nearest_zones_bounds [zC3] 49 3 4).2.2.2.2 (by norm_num)).1⟩

/-! ### C8: refinement characterisation -/

/-- The resistance refinement walk is the fold of `max` over closes of
the longest prefix on which neither stop condition fires. -/
lemma refineWalkRes_eq (zH : Rat) (l : List Candle) (acc : Rat) :
    refineWalkRes zH l acc =
      (l.takeWhile fun c =>
          !(decide (c.high > zH) || decide (c.close > zH))).foldl
        (fun a c => max a c.close) acc := by
  induction l generalizing acc with
  | nil => rfl
  | cons c rest ih =>
    rw [List.takeWhile_cons]
    by_cases h1 : c.high > zH
    · simp [refineWalkRes, h1]
    · by_cases h2 : c.close > zH
      · simp [refineWalkRes, h1, h2]
      · simp [refineWalkRes, h1, h2, ih]

/-- The support refinement walk is the fold of `min` over closes of
the longest prefix on which neither stop condition fires. -/
lemma refineWalkSup_eq (zL : Rat) (l : List Candle) (acc : Rat) :
    refineWalkSup zL l acc =
      (l.takeWhile fun c =>
          !(decide (c.low < zL) || decide (c.close < zL))).foldl
        (fun a c => min a c.close) acc := by
  induction l generalizing acc with
  | nil => rfl
  | cons c rest ih =>
    rw [List.takeWhile_cons]
    by_cases h1 : c.low < zL
    · simp [refineWalkSup, h1]
    · by_cases h2 : c.close < zL
      · simp [refineWalkSup, h1, h2]
      · simp [refineWalkSup, h1, h2, ih]

/-- A `max`-fold only grows its accumulator. -/
lemma le_foldl_max (l : List Candle) (acc : Rat) :
    acc ≤ l.foldl (fun a c => max a c.close) acc := by
  induction l generalizing acc with
  | nil => simp
  | cons c rest ih =>
    exact le_trans (le_max_left _ _) (ih (max acc c.close))

/-- A `min`-fold only shrinks its accumulator. -/
lemma foldl_min_le (l : List Candle) (acc : Rat) :
    l.foldl (fun a c => min a c.close) acc ≤ acc := by
  induction l generalizing acc with
  | nil => simp
  | cons c rest ih =>
    exact le_trans (ih (min acc c.close)) (min_le_left _ _)

/-- C8: on a zone with `zone_low < zone_high`, `_refine_zone` walks
forward from the pivot accumulating the running extreme of closes of
the prefix before the first bar whose wick exceeds the outer bound or
whose close breaches it (that bar excluded), applies the accumulated
extreme as the new inner bound only when it stays strictly inside the
outer bound, and leaves the outer bound, kind, origin time, strength
and pivot index unchanged; the result still satisfies
`zone_low < zone_high` and the inner bound only tightens. -/
theorem refine_zone_spec (z : Zone) (cs : List Candle)
    (h : z.zone_low < z.zone_high) :
    (refine_zone z cs).type = z.type ∧
    (refine_zone z cs).origin_time = z.origin_time ∧
    (refine_zone z cs).strength = z.strength ∧
    (refine_zone z cs).pivot_idx = z.pivot_idx ∧
    (refine_zone z cs).touches = z.touches ∧
    (refine_zone z cs).status = z.status ∧
    (refine_zone z cs).zone_low < (refine_zone z cs).zone_high ∧
    (z.type = ZoneKind.resistance →
      (refine_zone z cs).zone_high = z.zone_high ∧
      z.zone_low ≤ (refine_zone z cs).zone_low ∧
      (refine_zone z cs).zone_low =
        (if ((cs.drop z.pivot_idx).takeWhile fun c =>
              !(decide (c.high > z.zone_high) || decide (c.close > z.zone_high))).foldl
              (fun a c => max a c.close) z.zone_low < z.zone_high
         then ((cs.drop z.pivot_idx).takeWhile fun c =>
              !(decide (c.high > z.zone_high) || decide (c.close > z.zone_high))).foldl
              (fun a c => max a c.close) z.zone_low
         else z.zone_low)) ∧
    (z.type = ZoneKind.support →
      (refine_zone z cs).zone_low = z.zone_low ∧
      (refine_zone z cs).zone_high ≤ z.zone_high ∧
      (refine_zone z cs).zone_high =
        (if ((cs.drop z.pivot_idx).takeWhile fun c =>
              !(decide (c.low < z.zone_low) || decide (c.close < z.zone_low))).foldl
              (fun a c => min a c.close) z.zone_high > z.zone_low
         then ((cs.drop z.pivot_idx).takeWhile fun c =>
              !(decide (c.low < z.zone_low) || decide (c.close < z.zone_low))).foldl
              (fun a c => min a c.close) z.zone_high
         else z.zone_high)) := by
  rcases htz : z.type with _ | _
  · -- support
    have he : refine_zone z cs =
        (if refineWalkSup z.zone_low (cs.drop z.pivot_idx) z.zone_high > z.zone_low
         then { z with zone_high :=
                  refineWalkSup z.zone_low (cs.drop z.pivot_idx) z.zone_high }
         else z) := by
      rw [refine_zone, if_pos htz]
    rw [refineWalkSup_eq] at he
    by_cases hgt : ((cs.drop z.pivot_idx).takeWhile fun c =>
        !(decide (c.low < z.zone_low) || decide (c.close < z.zone_low))).foldl
        (fun a c => min a c.close) z.zone_high > z.zone_low
    · rw [if_pos hgt] at he
      rw [he]
      refine ⟨htz, rfl, rfl, rfl, rfl, rfl, hgt, ?_, ?_⟩
      · intro hr; cases hr
      · intro _
        exact ⟨rfl, foldl_min_le _ _, by rw [if_pos hgt]⟩
    · rw [if_neg hgt] at he
      rw [he]
      refine ⟨htz, rfl, rfl, rfl, rfl, rfl, h, ?_, ?_⟩
      · intro hr; cases hr
      · intro _
        exact ⟨rfl, le_refl _, by rw [if_neg hgt]⟩
  · -- resistance
    have hns : ¬ z.type = ZoneKind.support := by
      rw [htz]; intro hr; cases hr
    have he : refine_zone z cs =
        (if refineWalkRes z.zone_high (cs.drop z.pivot_idx) z.zone_low < z.zone_high
         then { z with zone_low :=
                  refineWalkRes z.zone_high (cs.drop z.pivot_idx) z.zone_low }
         else z) := by
      rw [refine_zone, if_neg hns]
    rw [refineWalkRes_eq] at he
    by_cases hlt : ((cs.drop z.pivot_idx).takeWhile fun c =>
        !(decide (c.high > z.zone_high) || decide (c.close > z.zone_high))).foldl
        (fun a c => max a c.close) z.zone_low < z.zone_high
    · rw [if_pos hlt] at he
      rw [he]
      refine ⟨htz, rfl, rfl, rfl, rfl, rfl, hlt, ?_, ?_⟩
      · intro _
        exact ⟨rfl, le_foldl_max _ _, by rw [if_pos hlt]⟩
      · intro hr; cases hr
    · rw [if_neg hlt] at he
      rw [he]
      refine ⟨htz, rfl, rfl, rfl, rfl, rfl, h, ?_, ?_⟩
      · intro _
        exact ⟨rfl, le_refl _, by rw [if_neg hlt]⟩
      · intro hr; cases hr

/-- Witness for C8 at a concrete zone and bar sequence. -/
theorem refine_zone_spec_witness :
    zW.zone_low < zW.zone_high ∧
    (refine_zone zW csW).zone_low < (refine_zone zW csW).zone_high ∧
    (refine_zone zW csW).type = zW.type :=
  ⟨by decide, (refine_zone_spec zW csW (by decide)).2.2.2.2.2.2.1,
   (refine_zone_spec zW csW (by decide)).1⟩

/-! ### C10: the close-breach stop branch is dead on validated zones -/

/-- On a list on which no close exceeds the bound, the resistance walk
ignores its close-breach branch. -/
lemma refineWalkRes_nc (zH : Rat) (l : List Candle) (acc : Rat)
    (h : ∀ c ∈ l, ¬ c.close > zH) :
    refineWalkRes zH l acc = refineWalkResNC zH l acc := by
  induction l generalizing acc with
  | nil => rfl
  | cons c rest ih =>
    by_cases h1 : c.high > zH
    · simp [refineWalkRes, refineWalkResNC, h1]
    · have h2 : ¬ c.close > zH := h c (by simp)
      simp only [refineWalkRes, refineWalkResNC, if_neg h1, if_neg h2]
      exact ih _ fun c' hc' => h c' (by simp [hc'])

/-- On a list on which no close falls below the bound, the support
walk ignores its close-breach branch. -/
lemma refineWalkSup_nc (zL : Rat) (l : List Candle) (acc : Rat)
    (h : ∀ c ∈ l, ¬ c.close < zL) :
    refineWalkSup zL l acc = refineWalkSupNC zL l acc := by
  induction l generalizing acc with
  | nil => rfl
  | cons c rest ih =>
    by_cases h1 : c.low < zL
    · simp [refineWalkSup, refineWalkSupNC, h1]
    · have h2 : ¬ c.close < zL := h c (by simp)
      simp only [refineWalkSup, refineWalkSupNC, if_neg h1, if_neg h2]
      exact ih _ fun c' hc' => h c' (by simp [hc'])

/-- C10: on a zone that `_is_broken` does not reject, the close-breach
stop branch of `_refine_zone` never fires, so deleting it leaves the
result unchanged. -/
theorem refine_zone_close_branch_dead (z : Zone) (cs : List Candle)
    (hb : is_broken z cs = false) :
    refine_zone z cs = refine_zone_nc z cs := by
  rw [is_broken, List.any_eq_false] at hb
  rcases htz : z.type with _ | _
  · have hns : z.type = ZoneKind.support := htz
    have hcl : ∀ c ∈ cs.drop z.pivot_idx, ¬ c.close < z.zone_low := by
      intro c hc hlt
      have := hb c hc
      simp [htz, hlt] at this
    rw [refine_zone, refine_zone_nc, if_pos hns, if_pos hns,
      refineWalkSup_nc z.zone_low _ _ hcl]
  · have hns : ¬ z.type = ZoneKind.support := by
      rw [htz]; intro hr; cases hr
    have hcl : ∀ c ∈ cs.drop z.pivot_idx, ¬ c.close > z.zone_high := by
      intro c hc hlt
      have := hb c hc
      simp [htz, hlt] at this
    rw [refine_zone, refine_zone_nc, if_neg hns, if_neg hns,
      refineWalkRes_nc z.zone_high _ _ hcl]

/-- Witness for C10 at a concrete validated zone. -/
theorem refine_zone_close_branch_dead_witness :
    is_broken zW csW = false ∧ refine_zone zW csW = refine_zone_nc zW csW :=
  ⟨by decide, refine_zone_close_branch_dead zW csW (by decide)⟩

/-! ### Merge-loop structural lemmas -/

/-- The inner merge loop never lengthens the remaining-zone list. -/
lemma absorb_len_le (t : Rat) (z1 : Zone) (l : List Zone) :
    (absorb t z1 l).2.1.length ≤ l.length := by
  induction l generalizing z1 with
  | nil => simp [absorb]
  | cons z2 rest ih =>
    by_cases hm : mergePred t z1 z2 = true
    · by_cases ho : z1.origin_time ≤ z2.origin_time
      · simp only [absorb, if_pos hm, if_pos ho]
        exact le_trans (ih (mergeInto z1 z2)) (Nat.le_succ _)
      · simp only [absorb, if_pos hm, if_neg ho]
        exact le_trans (ih z1) (Nat.le_succ _)
    · simp only [absorb, if_neg hm, List.length_cons]
      exact Nat.succ_le_succ (ih z1)

/-- When the inner merge loop merged something, the remaining-zone
list is strictly shorter. -/
lemma absorb_flag_lt (t : Rat) (z1 : Zone) (l : List Zone)
    (h : (absorb t z1 l).2.2 = true) :
    (absorb t z1 l).2.1.length < l.length := by
  induction l generalizing z1 with
  | nil => simp [absorb] at h
  | cons z2 rest ih =>
    by_cases hm : mergePred t z1 z2 = true
    · by_cases ho : z1.origin_time ≤ z2.origin_time
      · simp only [absorb, if_pos hm, if_pos ho, List.length_cons]
        exact Nat.lt_succ_of_le (absorb_len_le t (mergeInto z1 z2) rest)
      · simp only [absorb, if_pos hm, if_neg ho, List.length_cons]
        exact Nat.lt_succ_of_le (absorb_len_le t z1 rest)
    · simp only [absorb, if_neg hm] at h ⊢
      simp only [List.length_cons]
      exact Nat.succ_lt_succ (ih z1 h)

/-- When the inner merge loop merged nothing, it is the identity. -/
lemma absorb_flag_false (t : Rat) (z1 : Zone) (l : List Zone)
    (h : (absorb t z1 l).2.2 = false) :
    (absorb t z1 l).1 = z1 ∧ (absorb t z1 l).2.1 = l := by
  induction l generalizing z1 with
  | nil => exact ⟨rfl, rfl⟩
  | cons z2 rest ih =>
    by_cases hm : mergePred t z1 z2 = true
    · by_cases ho : z1.origin_time ≤ z2.origin_time
      · simp [absorb, if_pos hm, if_pos ho] at h
      · simp [absorb, if_pos hm, if_neg ho] at h
    · simp only [absorb, if_neg hm] at h ⊢
      obtain ⟨h1, h2⟩ := ih z1 h
      exact ⟨h1, by rw [h2]⟩

/-- A merge pass never lengthens the zone list (any fuel). -/
lemma mergePassF_len_le (t : Rat) (fuel : Nat) (l : List Zone) :
    (mergePassF t fuel l).1.length ≤ l.length := by
  induction fuel generalizing l with
  | zero => cases l <;> simp [mergePassF]
  | succ fuel ih =>
    cases l with
    | nil => simp [mergePassF]
    | cons z1 rest =>
      simp only [mergePassF, List.length_cons]
      exact Nat.succ_le_succ
        (le_trans (ih (absorb t z1 rest).2.1) (absorb_len_le t z1 rest))

/-- A merge pass that reports a merge strictly shrinks the zone
list. -/
lemma mergePassF_flag_lt (t : Rat) (fuel : Nat) (l : List Zone)
    (h : (mergePassF t fuel l).2 = true) :
    (mergePassF t fuel l).1.length < l.length := by
  induction fuel generalizing l with
  | zero => cases l <;> simp [mergePassF] at h
  | succ fuel ih =>
    cases l with
    | nil => simp [mergePassF] at h
    | cons z1 rest =>
      simp only [mergePassF, Bool.or_eq_true] at h ⊢
      simp only [List.length_cons]
      rcases h with h | h
      · exact Nat.succ_lt_succ
          (lt_of_le_of_lt (mergePassF_len_le t fuel _) (absorb_flag_lt t z1 rest h))
      · exact Nat.succ_lt_succ
          (lt_of_lt_of_le (ih _ h) (absorb_len_le t z1 rest))

/-- A merge pass that reports no merge is the identity. -/
lemma mergePassF_flag_false (t : Rat) (fuel : Nat) (l : List Zone)
    (h : (mergePassF t fuel l).2 = false) :
    (mergePassF t fuel l).1 = l := by
  induction fuel generalizing l with
  | zero => cases l <;> rfl
  | succ fuel ih =>
    cases l with
    | nil => rfl
    | cons z1 rest =>
      simp only [mergePassF, Bool.or_eq_false_iff] at h ⊢
      obtain ⟨h1, h2⟩ := h
      obtain ⟨ha, hr⟩ := absorb_flag_false t z1 rest h1
      rw [hr] at h2
      rw [ha, hr, ih rest h2]

/-- The fuelled fixed-point loop, run with fuel at least the list
length, reaches a true fixed point of the merge pass. -/
lemma mergeLoopF_fixed (t : Rat) (fuel : Nat) (l : List Zone)
    (h : l.length ≤ fuel) :
    mergePass t (mergeLoopF t fuel l) = (mergeLoopF t fuel l, false) := by
  induction fuel generalizing l with
  | zero =>
    have : l = [] := List.length_eq_zero.mp (Nat.le_zero.mp h)
    subst this
    rfl
  | succ fuel ih =>
    show mergePass t (if (mergePass t l).2 then mergeLoopF t fuel (mergePass t l).1
          else (mergePass t l).1) =
        ((if (mergePass t l).2 then mergeLoopF t fuel (mergePass t l).1
          else (mergePass t l).1), false)
    by_cases hf : (mergePass t l).2 = true
    · rw [if_pos hf]
      refine ih _ ?_
      have hlt : (mergePass t l).1.length < l.length :=
        mergePassF_flag_lt t l.length l hf
      omega
    · rw [if_neg hf]
      have h2 : (mergePass t l).2 = false := Bool.eq_false_iff.mpr hf
      have hid : (mergePass t l).1 = l :=
        mergePassF_flag_false t l.length l h2
      rw [hid]
      exact Prod.ext hid h2

/-! ### C6: merging is idempotent -/

/-- C6: `_merge_zones` is idempotent — applying it to its own output
(at the same threshold) returns that output unchanged, because the
fixed-point loop only stops after a pass with zero merges and a
zero-merge pass is the identity. -/
theorem merge_zones_idempotent (t : Rat) (zs : List Zone) :
    merge_zones t (merge_zones t zs) = merge_zones t zs := by
  rcases zs with _ | ⟨z, zs'⟩
  · rfl
  · have hfix : mergePass t (merge_zones t (z :: zs')) =
        (merge_zones t (z :: zs'), false) := by
      show mergePass t (if (z :: zs').isEmpty then z :: zs'
            else mergeLoopF t (z :: zs').length (z :: zs')) = _
      simp only [List.isEmpty_cons, Bool.false_eq_true, if_false]
      exact mergeLoopF_fixed t _ _ (le_refl _)
    generalize hg : merge_zones t (z :: zs') = r at hfix ⊢
    rcases r with _ | ⟨a, l⟩
    · rfl
    · show (if (a :: l).isEmpty then a :: l
            else mergeLoopF t (a :: l).length (a :: l)) = a :: l
      simp only [List.isEmpty_cons, Bool.false_eq_true, if_false,
        List.length_cons]
      show (if (mergePass t (a :: l)).2 then mergeLoopF t l.length (mergePass t (a :: l)).1
            else (mergePass t (a :: l)).1) = a :: l
      rw [hfix]
      simp

/-! ### C1: the merge keeps the newer zone when the older comes later -/

/-- Counterexample to C1 / evaluation of the C1 bug: two overlapping
resistance zones where the second-listed one is chronologically older.
The source writes the merged fields into the older zone (`base`) but
appends `z1`, so the returned survivor is the NEWER zone, unchanged:
origin 2000 (not the older 1000), bounds `[100,102]` (not the union
`[100,103]`), strength 1 (not 2), pivot 7 (not 3).  With the same two
zones listed oldest-first the merged union zone is returned, as the
docstring and spec describe. -/
theorem merge_zones_keeps_newer_eval :
    mergePred (5/1000) zNew zOld = true ∧
    zOld.origin_time < zNew.origin_time ∧
    merge_zones (5/1000) [zNew, zOld] = [zNew] ∧
    zNew.strength = 1 ∧ zNew.origin_time = 2000 ∧ zNew.zone_high = 102 ∧
    merge_zones (5/1000) [zOld, zNew] =
      [{ type := ZoneKind.resistance, zone_low := 100, zone_high := 103,
         origin_time := 1000, strength := 2, pivot_idx := 3 }] := by
  decide

/-! ### Preservation of zone properties through the pipeline -/

/-- A property stable under pairwise merging is preserved by the inner
merge loop, both on the survivor and on the remaining zones. -/
lemma absorb_preserve (P : Zone → Prop)
    (hP : ∀ z1 z2, z1.type = z2.type → P z1 → P z2 → P (mergeInto z1 z2))
    (t : Rat) (z1 : Zone) (l : List Zone) (h1 : P z1) (hl : ∀ z ∈ l, P z) :
    P (absorb t z1 l).1 ∧ ∀ z ∈ (absorb t z1 l).2.1, P z := by
  induction l generalizing z1 with
  | nil => exact ⟨h1, by simp [absorb]⟩
  | cons z2 rest ih =>
    by_cases hm : mergePred t z1 z2 = true
    · have htype : z1.type = z2.type := by
        simp only [mergePred, Bool.and_eq_true, decide_eq_true_eq] at hm
        exact hm.1
      by_cases ho : z1.origin_time ≤ z2.origin_time
      · simp only [absorb, if_pos hm, if_pos ho]
        exact ih (mergeInto z1 z2) (hP z1 z2 htype h1 (hl z2 (by simp)))
          (fun z hz => hl z (by simp [hz]))
      · simp only [absorb, if_pos hm, if_neg ho]
        exact ih z1 h1 (fun z hz => hl z (by simp [hz]))
    · simp only [absorb, if_neg hm]
      obtain ⟨ha, hr⟩ := ih z1 h1 (fun z hz => hl z (by simp [hz]))
      refine ⟨ha, ?_⟩
      intro z hz
      rcases List.mem_cons.mp hz with rfl | hz'
      · exact hl z (by simp)
      · exact hr z hz'

/-- A property stable under pairwise merging is preserved by a merge
pass. -/
lemma mergePassF_preserve (P : Zone → Prop)
    (hP : ∀ z1 z2, z1.type = z2.type → P z1 → P z2 → P (mergeInto z1 z2))
    (t : Rat) (fuel : Nat) :
    ∀ l, (∀ z ∈ l, P z) → ∀ z ∈ (mergePassF t fuel l).1, P z := by
  induction fuel with
  | zero =>
    intro l hl z hz
    cases l with
    | nil => simp [mergePassF] at hz
    | cons z1 rest =>
      simp only [mergePassF] at hz
      exact hl z hz
  | succ fuel ih =>
    intro l hl z hz
    cases l with
    | nil => simp [mergePassF] at hz
    | cons z1 rest =>
      simp only [mergePassF] at hz
      obtain ⟨ha, hr⟩ := absorb_preserve P hP t z1 rest (hl z1 (by simp))
        (fun z' hz' => hl z' (by simp [hz']))
      rcases List.mem_cons.mp hz with rfl | hz'
      · exact ha
      · exact ih _ hr z hz'

/-- A property stable under pairwise merging is preserved by the
fixed-point loop. -/
lemma mergeLoopF_preserve (P : Zone → Prop)
    (hP : ∀ z1 z2, z1.type = z2.type → P z1 → P z2 → P (mergeInto z1 z2))
    (t : Rat) (fuel : Nat) :
    ∀ l, (∀ z ∈ l, P z) → ∀ z ∈ mergeLoopF t fuel l, P z := by
  induction fuel with
  | zero => intro l hl z hz; exact hl z hz
  | succ fuel ih =>
    intro l hl z hz
    by_cases hf : (mergePass t l).2 = true
    · have he : mergeLoopF t (fuel+1) l = mergeLoopF t fuel (mergePass t l).1 := by
        show (if (mergePass t l).2 then mergeLoopF t fuel (mergePass t l).1
              else (mergePass t l).1) = _
        rw [if_pos hf]
      rw [he] at hz
      exact ih _ (mergePassF_preserve P hP t l.length l hl) z hz
    · have he : mergeLoopF t (fuel+1) l = (mergePass t l).1 := by
        show (if (mergePass t l).2 then mergeLoopF t fuel (mergePass t l).1
              else (mergePass t l).1) = _
        rw [if_neg hf]
      rw [he] at hz
      exact mergePassF_preserve P hP t l.length l hl z hz

/-- A property stable under pairwise merging is preserved by
`_merge_zones`. -/
lemma merge_zones_preserve (P : Zone → Prop)
    (hP : ∀ z1 z2, z1.type = z2.type → P z1 → P z2 → P (mergeInto z1 z2))
    (t : Rat) (zs : List Zone) (hl : ∀ z ∈ zs, P z) :
    ∀ z ∈ merge_zones t zs, P z := by
  intro z hz
  rw [merge_zones] at hz
  by_cases he : zs.isEmpty
  · rw [if_pos he] at hz; exact hl z hz
  · rw [if_neg he] at hz
    exact mergeLoopF_preserve P hP t zs.length zs hl z hz

/-- `_refine_zone` keeps the zone's type and pivot index and never
touches the outer bound. -/
lemma refine_zone_fields (z : Zone) (cs : List Candle) :
    (refine_zone z cs).type = z.type ∧
    (refine_zone z cs).pivot_idx = z.pivot_idx ∧
    (z.type = ZoneKind.resistance → (refine_zone z cs).zone_high = z.zone_high) ∧
    (z.type = ZoneKind.support → (refine_zone z cs).zone_low = z.zone_low) := by
  by_cases ht : z.type = ZoneKind.support
  · have he : refine_zone z cs =
        (if refineWalkSup z.zone_low (cs.drop z.pivot_idx) z.zone_high > z.zone_low
         then { z with zone_high :=
                  refineWalkSup z.zone_low (cs.drop z.pivot_idx) z.zone_high }
         else z) := by rw [refine_zone, if_pos ht]
    by_cases hgt : refineWalkSup z.zone_low (cs.drop z.pivot_idx) z.zone_high > z.zone_low
    · rw [he, if_pos hgt]
      refine ⟨rfl, rfl, ?_, fun _ => rfl⟩
      intro hr; rw [ht] at hr; cases hr
    · rw [he, if_neg hgt]
      exact ⟨rfl, rfl, fun _ => rfl, fun _ => rfl⟩
  · have he : refine_zone z cs =
        (if refineWalkRes z.zone_high (cs.drop z.pivot_idx) z.zone_low < z.zone_high
         then { z with zone_low :=
                  refineWalkRes z.zone_high (cs.drop z.pivot_idx) z.zone_low }
         else z) := by rw [refine_zone, if_neg ht]
    by_cases hlt : refineWalkRes z.zone_high (cs.drop z.pivot_idx) z.zone_low < z.zone_high
    · rw [he, if_pos hlt]
      exact ⟨rfl, rfl, fun _ => rfl, fun hs => absurd hs ht⟩
    · rw [he, if_neg hlt]
      exact ⟨rfl, rfl, fun _ => rfl, fun _ => rfl⟩

/-- A zone that `_is_broken` does not reject is breakout-free. -/
lemma is_broken_false_notBrokenOut (z : Zone) (cs : List Candle)
    (hb : is_broken z cs = false) : NotBrokenOut cs z := by
  rw [is_broken, List.any_eq_false] at hb
  have hmem : ∀ i, z.pivot_idx ≤ i → (hi : i < cs.length) →
      cs.getD i dfltCandle ∈ cs.drop z.pivot_idx := by
    intro i hpi hi
    have hj : i - z.pivot_idx < (cs.drop z.pivot_idx).length := by
      rw [List.length_drop]; omega
    have he : (cs.drop z.pivot_idx)[i - z.pivot_idx] = cs[i] := by
      rw [List.getElem_drop]
      congr 1
      omega
    rw [List.getD_eq_getElem cs dfltCandle hi, ← he]
    exact List.getElem_mem hj
  constructor
  · intro ht i hpi hi
    have := hb _ (hmem i hpi hi)
    simp [ht] at this
    rw [List.getD_eq_getElem?_getD]
    exact this
  · intro ht i hpi hi
    have := hb _ (hmem i hpi hi)
    simp [ht] at this
    rw [List.getD_eq_getElem?_getD]
    exact this

/-- Refinement preserves breakout-freedom: it moves neither the outer
bound nor the pivot index. -/
lemma refine_zone_notBrokenOut (z : Zone) (cs : List Candle)
    (h : NotBrokenOut cs z) : NotBrokenOut cs (refine_zone z cs) := by
  obtain ⟨hty, hpi, hhi, hlo⟩ := refine_zone_fields z cs
  constructor
  · intro hres i hge hi
    rw [hpi] at hge
    rw [hhi (by rw [← hty]; exact hres)]
    exact h.1 (by rw [← hty]; exact hres) i hge hi
  · intro hsup i hge hi
    rw [hpi] at hge
    rw [hlo (by rw [← hty]; exact hsup)]
    exact h.2 (by rw [← hty]; exact hsup) i hge hi

/-- Merging two breakout-free zones of one type gives a breakout-free
zone: the union bound dominates each original bound and the merged
pivot index is one of the two originals. -/
lemma mergeInto_notBrokenOut (cs : List Candle) (z1 z2 : Zone)
    (ht : z1.type = z2.type)
    (h1 : NotBrokenOut cs z1) (h2 : NotBrokenOut cs z2) :
    NotBrokenOut cs (mergeInto z1 z2) := by
  constructor
  · intro hres i hpi hi
    have ht1 : z1.type = ZoneKind.resistance := hres
    have ht2 : z2.type = ZoneKind.resistance := by rw [← ht]; exact hres
    have hp : min z1.pivot_idx z2.pivot_idx ≤ i := hpi
    show (cs.getD i dfltCandle).close ≤ max z1.zone_high z2.zone_high
    rcases min_le_iff.mp hp with hp1 | hp2
    · exact le_trans (h1.1 ht1 i hp1 hi) (le_max_left _ _)
    · exact le_trans (h2.1 ht2 i hp2 hi) (le_max_right _ _)
  · intro hsup i hpi hi
    have ht1 : z1.type = ZoneKind.support := hsup
    have ht2 : z2.type = ZoneKind.support := by rw [← ht]; exact hsup
    have hp : min z1.pivot_idx z2.pivot_idx ≤ i := hpi
    show min z1.zone_low z2.zone_low ≤ (cs.getD i dfltCandle).close
    rcases min_le_iff.mp hp with hp1 | hp2
    · exact le_trans (min_le_left _ _) (h1.2 ht1 i hp1 hi)
    · exact le_trans (min_le_right _ _) (h2.2 ht2 i hp2 hi)

/-! ### C2: no broken zone survives `detect_zones` -/

/-- C2: every zone in the output of `detect_zones` is breakout-free —
for a resistance zone no bar at or after its pivot index closes
strictly above `zone_high`, and for a support zone no such bar closes
strictly below `zone_low`; this covers merged zones, whose union bound
and minimum pivot index preserve the property. -/
theorem detect_zones_no_breakout (cs : List Candle) (z : Zone)
    (hz : z ∈ detect_zones cs) :
    (z.type = ZoneKind.resistance → ∀ i, z.pivot_idx ≤ i → i < cs.length →
      (cs.getD i dfltCandle).close ≤ z.zone_high) ∧
    (z.type = ZoneKind.support → ∀ i, z.pivot_idx ≤ i → i < cs.length →
      z.zone_low ≤ (cs.getD i dfltCandle).close) := by
  show NotBrokenOut cs z
  by_cases hlen : cs.length < 5
  · rw [detect_zones, if_pos hlen] at hz
    cases hz
  · simp only [detect_zones, if_neg hlen] at hz
    have hz1 := (List.mem_filter.mp hz).1
    refine merge_zones_preserve (NotBrokenOut cs)
      (fun z1 z2 ht h1 h2 => mergeInto_notBrokenOut cs z1 z2 ht h1 h2)
      (5/1000) _ ?_ z hz1
    intro z' hz'
    rw [List.mem_filterMap] at hz'
    obtain ⟨p, hp, hpe⟩ := hz'
    rcases hinit : init_zone_from_pivot p cs with _ | z0
    · simp only [hinit] at hpe
      cases hpe
    · simp only [hinit] at hpe
      by_cases hbk : is_broken z0 cs = true
      · rw [if_pos hbk] at hpe
        cases hpe
      · rw [if_neg hbk] at hpe
        have hz0 : refine_zone z0 cs = z' := Option.some.inj hpe
        rw [← hz0]
        exact refine_zone_notBrokenOut z0 cs
          (is_broken_false_notBrokenOut z0 cs (Bool.eq_false_iff.mpr hbk))

/-- Witness for C2: the concrete output zone of `detect_zones csW` and
a concrete later bar. -/
theorem detect_zones_no_breakout_witness :
    zW ∈ detect_zones csW ∧ (csW.getD 3 dfltCandle).close ≤ zW.zone_high :=
  ⟨by decide,
   (detect_zones_no_breakout csW zW (by decide)).1 (by decide) 3
     (by decide) (by decide)⟩

/-! ### C4: output invariants and kind stability -/

/-- C4: every zone in the output of `detect_zones` satisfies
`zone_low < zone_high` and `status = active`; refinement never changes
a zone's kind; and every zone produced by merging carries the kind of
one of the input zones (merging writes the base zone's kind, and only
same-kind pairs merge). -/
theorem detect_zones_invariants :
    (∀ (cs : List Candle) (z : Zone), z ∈ detect_zones cs →
      z.zone_low < z.zone_high ∧ z.status = ZStatus.active) ∧
    (∀ (z : Zone) (cs : List Candle), (refine_zone z cs).type = z.type) ∧
    (∀ (t : Rat) (zs : List Zone) (z : Zone), z ∈ merge_zones t zs →
      ∃ z' ∈ zs, z.type = z'.type) := by
  refine ⟨?_, ?_, ?_⟩
  · intro cs z hz
    by_cases hlen : cs.length < 5
    · rw [detect_zones, if_pos hlen] at hz
      cases hz
    · simp only [detect_zones, if_neg hlen] at hz
      have := (List.mem_filter.mp hz).2
      simp only [Bool.and_eq_true, decide_eq_true_eq] at this
      exact this
  · intro z cs
    exact (refine_zone_fields z cs).1
  · intro t zs z hz
    exact merge_zones_preserve (fun w => ∃ z' ∈ zs, w.type = z'.type)
      (fun z1 z2 ht h1 h2 => by
        obtain ⟨w, hw, he⟩ := h1
        exact ⟨w, hw, he⟩)
      t zs (fun z' hz' => ⟨z', hz', rfl⟩) z hz

/-- Witness for C4 at concrete inputs. -/
theorem detect_zones_invariants_witness :
    (zW.zone_low < zW.zone_high ∧ zW.status = ZStatus.active) ∧
    (refine_zone zW csW).type = zW.type ∧
    ∃ z' ∈ [zC3], zC3.type = z'.type :=
  ⟨detect_zones_invariants.1 csW zW (by decide),
   detect_zones_invariants.2.1 zW csW,
   detect_zones_invariants.2.2 (5/1000) [zC3] zC3 (by decide)⟩

end SR
